import Mathlib

/-
Verification of the escape-time fractal renderer in app.py (lines 135-173).

The numeric core is modelled with exact arithmetic: complex samples are pairs
of rationals, and the escape test np.abs(Z) > 2 is rendered as the equivalent
exact comparison normSq Z > 4 (for exact reals, |z| > 2 iff re^2 + im^2 > 4).
The numpy array operations of the inner loop are elementwise, so the engine is
modelled per pixel: one PixState per grid point, stepped independently.
-/

namespace Fractal

/-- A complex sample with rational coordinates, modelling one entry of the
numpy complex128 arrays with exact arithmetic. -/
structure QComplex where
  re : ℚ
  im : ℚ
deriving DecidableEq, Repr

instance : Add QComplex where
  add a b := ⟨a.re + b.re, a.im + b.im⟩

instance : Mul QComplex where
  mul a b := ⟨a.re * b.re - a.im * b.im, a.re * b.im + a.im * b.re⟩

/-- Squared magnitude: normSq z > 4 is the exact form of np.abs(Z) > 2. -/
def QComplex.normSq (a : QComplex) : ℚ :=
  a.re * a.re + a.im * a.im

/-- Per-pixel slice of the per-frame iteration state of app.py:
z is the pixel's entry of Z, active its entry of the mask M,
count its entry of the count array N (N holds iteration indices). -/
structure PixState where
  z : QComplex
  active : Bool
  count : ℕ
deriving DecidableEq, Repr

/-- One iteration of the inner loop (app.py lines 160-163), per pixel:
Z[M] = Z[M] * Z[M] + C[M]; M[np.abs(Z) > 2] = False; N[M] = i.
The escape test is applied to every pixel (not only active ones) exactly as
in the source; the count update uses the freshly updated mask. -/
def engineStep (c : QComplex) (i : ℕ) (s : PixState) : PixState :=
  let z1 := if s.active then s.z * s.z + c else s.z
  let m1 := if 4 < QComplex.normSq z1 then false else s.active
  let n1 := if m1 then i else s.count
  ⟨z1, m1, n1⟩

/-- State of one pixel after i iterations of the inner loop, starting from
Z = z0, M = True, N = 0 (app.py lines 155-158). -/
def pixRun (c z0 : QComplex) : ℕ → PixState
  | 0 => ⟨z0, true, 0⟩
  | i + 1 => engineStep c i (pixRun c z0 i)

/-- Final escape count of one pixel under iteration budget K. -/
def pixCount (c z0 : QComplex) (K : ℕ) : ℕ :=
  (pixRun c z0 K).count

/-- np.linspace(start, stop, num) at index i, in exact arithmetic:
start + i * (stop - start) / (num - 1). For num = 1 the rational division
by zero yields 0, so the value is start, matching numpy's single-point case. -/
def linspace (start stop : ℚ) (num : ℕ) (i : ℕ) : ℚ :=
  start + i * (stop - start) / ((num - 1 : ℕ) : ℚ)

/-- Horizontal coordinate x[col] of app.py line 145:
np.linspace(-m / s, m / s, num=m). -/
def xCoord (m : ℕ) (s : ℚ) (col : ℕ) : ℚ :=
  linspace (-(m : ℚ) / s) ((m : ℚ) / s) m col

/-- Vertical coordinate y[row] of app.py line 146:
np.linspace(-n / s, n / s, num=n). -/
def yCoord (n : ℕ) (s : ℚ) (row : ℕ) : ℚ :=
  linspace (-(n : ℚ) / s) ((n : ℚ) / s) n row

/-- The sampling grid of app.py line 155:
Z = np.tile(x, (n, 1)) + 1j * np.tile(y, (1, m)), an n-by-m array with
Z[row][col] = x[col] + 1j * y[row]. -/
def gridZ (m n : ℕ) (s : ℚ) : List (List QComplex) :=
  (List.range n).map (fun row => (List.range m).map (fun col => ⟨xCoord m s col, yCoord n s row⟩))

/-- Maximum entry of a count grid, modelling N.max(). -/
def gridMax (g : List (List ℕ)) : ℕ :=
  (g.map (fun r => r.foldr max 0)).foldr max 0

/-- IEEE division of one count by the maximum count. The dividend is at most
the divisor, so the only non-finite outcome is 0.0 / 0.0 = NaN, modelled as
none; a finite quotient of equal values is exactly 1.0, and 0 divided by a
positive value is exactly 0.0, so the rational value is exact in the cases
settled below. -/
def floatDiv (a b : ℚ) : Option ℚ :=
  if b = 0 then none else some (a / b)

/-- The display normalization of app.py line 166: 1.0 - (N / N.max()),
elementwise; 1.0 - NaN is NaN (none). -/
def normalize (g : List (List ℕ)) : List (List (Option ℚ)) :=
  g.map (fun r => r.map (fun a : ℕ => (floatDiv (a : ℚ) ((gridMax g : ℚ))).map (fun q => 1 - q)))

/-- The count grid produced by one frame of the engine: the pixelwise final
counts over a grid of initial samples (the numpy loop runs all pixels of N
in lockstep; the operations are elementwise, so the grid result is the
per-pixel run mapped over the grid). -/
def countGrid (c : QComplex) (K : ℕ) (g : List (List QComplex)) : List (List ℕ) :=
  g.map (fun row => row.map (fun z0 => pixCount c z0 K))

/-- A variant of the escape test restricted to currently-active pixels,
that is M[M and (np.abs(Z) > 2)] = False in place of M[np.abs(Z) > 2] = False;
used to state claim C10. -/
def engineStepMasked (c : QComplex) (i : ℕ) (s : PixState) : PixState :=
  let z1 := if s.active then s.z * s.z + c else s.z
  let m1 := if s.active = true ∧ 4 < QComplex.normSq z1 then false else s.active
  let n1 := if m1 then i else s.count
  ⟨z1, m1, n1⟩

/-- Pixel run using the active-restricted escape test. -/
def pixRunMasked (c z0 : QComplex) : ℕ → PixState
  | 0 => ⟨z0, true, 0⟩
  | i + 1 => engineStepMasked c i (pixRunMasked c z0 i)

@[simp] theorem QComplex.add_re (a b : QComplex) : (a + b).re = a.re + b.re := rfl

@[simp] theorem QComplex.add_im (a b : QComplex) : (a + b).im = a.im + b.im := rfl

@[simp] theorem QComplex.mul_re (a b : QComplex) : (a * b).re = a.re * b.re - a.im * b.im := rfl

@[simp] theorem QComplex.mul_im (a b : QComplex) : (a * b).im = a.re * b.im + a.im * b.re := rfl

/-- An inactive pixel is completely frozen: its z, mask and count entries are
untouched by further iterations. -/
theorem engineStep_frozen (c : QComplex) (i : ℕ) (s : PixState) (h : s.active = false) :
    engineStep c i s = s := by
  cases s with
  | mk z a n =>
    simp only at h
    subst h
    simp [engineStep]

/-- Once a pixel is inactive, all later states equal the state at the moment
it became inactive. -/
theorem pixRun_frozen (c z0 : QComplex) (i : ℕ) (h : (pixRun c z0 i).active = false) :
    ∀ j, i ≤ j → pixRun c z0 j = pixRun c z0 i := by
  intro j hij
  induction j with
  | zero =>
    have hi0 : i = 0 := Nat.le_zero.mp hij
    rw [hi0]
  | succ k ih =>
    rcases Nat.lt_or_ge i (k + 1) with hlt | hge
    · have hik : i ≤ k := by omega
      have hk := ih hik
      show engineStep c k (pixRun c z0 k) = pixRun c z0 i
      rw [hk]
      exact engineStep_frozen c k _ h
    · have hik : i = k + 1 := by omega
      rw [hik]

/-- A pixel whose very first update already exceeds the escape bound keeps
count 0 under every positive budget. -/
theorem pix_escape_first (c z0 : QComplex) (h : 4 < QComplex.normSq (z0 * z0 + c)) :
    ∀ K, 1 ≤ K → pixCount c z0 K = 0 := by
  intro K hK
  have h1 : pixRun c z0 1 = ⟨z0 * z0 + c, false, 0⟩ := by
    show engineStep c 0 ⟨z0, true, 0⟩ = _
    simp [engineStep, if_pos h]
  have hfrozen := pixRun_frozen c z0 1 (by rw [h1]) K hK
  unfold pixCount
  rw [hfrozen, h1]

/-- If a pixel is still active after the step, it was active before it. -/
theorem engineStep_active_mono (c : QComplex) (i : ℕ) (s : PixState)
    (h : (engineStep c i s).active = true) : s.active = true := by
  cases s with
  | mk z a n =>
    cases a with
    | false => simp [engineStep] at h
    | true => rfl

/-- If a pixel is still active after the step, its count was just set to the
current iteration index. -/
theorem engineStep_count_of_active (c : QComplex) (i : ℕ) (s : PixState)
    (h : (engineStep c i s).active = true) : (engineStep c i s).count = i := by
  unfold engineStep at h ⊢
  simp only at h ⊢
  rw [if_pos h]

/-- If a pixel is inactive after the step, its count entry was untouched by
the count update of that step. -/
theorem engineStep_count_of_inactive (c : QComplex) (i : ℕ) (s : PixState)
    (h : (engineStep c i s).active = false) : (engineStep c i s).count = s.count := by
  unfold engineStep at h ⊢
  simp only at h ⊢
  rw [if_neg (by simp [h])]

/-- A pixel active after i iterations carries count i - 1 (0 when i = 0). -/
theorem pix_active_count (c z0 : QComplex) :
    ∀ i, (pixRun c z0 i).active = true → (pixRun c z0 i).count = i - 1 := by
  intro i
  induction i with
  | zero => intro _; rfl
  | succ k _ =>
    intro h
    have hc := engineStep_count_of_active c k (pixRun c z0 k) h
    simpa using hc

/-- Counts never exceed the number of iterations performed minus one. -/
theorem pix_count_bound (c z0 : QComplex) :
    ∀ i, (pixRun c z0 i).count ≤ i - 1 := by
  intro i
  induction i with
  | zero => exact Nat.le_refl 0
  | succ k ih =>
    cases hact : (pixRun c z0 (k + 1)).active with
    | false =>
      have hc := engineStep_count_of_inactive c k (pixRun c z0 k) hact
      calc (pixRun c z0 (k + 1)).count = (pixRun c z0 k).count := hc
        _ ≤ k - 1 := ih
        _ ≤ (k + 1) - 1 := by omega
    | true =>
      have hc := engineStep_count_of_active c k (pixRun c z0 k) hact
      have hcc : (pixRun c z0 (k + 1)).count = k := hc
      omega

/-- The count entry of a pixel never decreases from one iteration to the
next: while active it is rewritten to the growing index, and once inactive
it is frozen. -/
theorem pix_count_step_mono (c z0 : QComplex) (i : ℕ) :
    (pixRun c z0 i).count ≤ (pixRun c z0 (i + 1)).count := by
  cases hact : (pixRun c z0 (i + 1)).active with
  | false =>
    have hc := engineStep_count_of_inactive c i (pixRun c z0 i) hact
    exact Nat.le_of_eq hc.symm
  | true =>
    have hc := engineStep_count_of_active c i (pixRun c z0 i) hact
    have hcc : (pixRun c z0 (i + 1)).count = i := hc
    have hb := pix_count_bound c z0 i
    omega

/-- Counts are monotone over time across any span of iterations. -/
theorem pix_count_mono (c z0 : QComplex) (i j : ℕ) (hij : i ≤ j) :
    (pixRun c z0 i).count ≤ (pixRun c z0 j).count := by
  induction j with
  | zero =>
    have hi0 : i = 0 := Nat.le_zero.mp hij
    rw [hi0]
  | succ k ih =>
    rcases Nat.lt_or_ge i (k + 1) with hlt | hge
    · have hik : i ≤ k := by omega
      exact Nat.le_trans (ih hik) (pix_count_step_mono c z0 k)
    · have hik : i = k + 1 := by omega
      rw [hik]

/-- The escape test applied to every pixel agrees with the escape test
restricted to active pixels, on every state: clearing an already-cleared
mask entry is a no-op. -/
theorem engineStepMasked_eq (c : QComplex) (i : ℕ) (s : PixState) :
    engineStepMasked c i s = engineStep c i s := by
  cases s with
  | mk z a n =>
    cases a with
    | false => simp [engineStepMasked, engineStep]
    | true => simp [engineStepMasked, engineStep]

/-- A pixel that was active and is deactivated by the step has its freshly
updated z beyond the escape bound. -/
theorem engineStep_escape (c : QComplex) (i : ℕ) (s : PixState)
    (ha : s.active = true) (h : (engineStep c i s).active = false) :
    4 < QComplex.normSq (engineStep c i s).z := by
  cases s with
  | mk z a n =>
    simp only at ha
    subst ha
    by_cases hcond : 4 < QComplex.normSq (z * z + c)
    · simpa [engineStep] using hcond
    · exfalso
      simp [engineStep, hcond] at h

/-- C2: a pixel marked inactive at the escape test of iteration i keeps the
count recorded in the last iteration it survived, which is i - 1 in
truncated natural subtraction (so 0 when it escaped during iteration 0, and
it never receives count = i from the iteration in which it escaped); a pixel
still active after iteration K - 1 has final count K - 1. -/
theorem c2_escape_count_semantics (c z0 : QComplex) (K : ℕ)
    (hK2 : 2 ≤ K) (hK20 : K ≤ 20) :
    (∀ i, i < K → (pixRun c z0 i).active = true → (pixRun c z0 (i + 1)).active = false →
      pixCount c z0 K = i - 1) ∧
    ((pixRun c z0 K).active = true → pixCount c z0 K = K - 1) := by
  constructor
  · intro i hiK hia hin
    have hcount : (pixRun c z0 i).count = i - 1 := pix_active_count c z0 i hia
    have hstep : (pixRun c z0 (i + 1)).count = (pixRun c z0 i).count :=
      engineStep_count_of_inactive c i (pixRun c z0 i) hin
    have hfrozen := pixRun_frozen c z0 (i + 1) hin K (by omega)
    unfold pixCount
    rw [hfrozen, hstep, hcount]
  · intro h
    exact pix_active_count c z0 K h

/-- Witness for C2 at c = 0, z0 = 3, K = 2: the pixel escapes during
iteration 0 (its first update is 9, beyond the bound) and its final count
is 0. -/
theorem c2_witness : pixCount ⟨0, 0⟩ ⟨3, 0⟩ 2 = 0 := by
  have h := (c2_escape_count_semantics ⟨0, 0⟩ ⟨3, 0⟩ 2 (by norm_num) (by norm_num)).1 0
    (by norm_num) (by rfl) (by norm_num [pixRun, engineStep, QComplex.normSq])
  simpa using h

/-- C6: every entry of the count grid lies in the interval from 0 to K - 1,
stated per pixel (the numpy loop is elementwise). -/
theorem c6_count_range (c z0 : QComplex) (K : ℕ) (hK2 : 2 ≤ K) (hK20 : K ≤ 20) :
    0 ≤ pixCount c z0 K ∧ pixCount c z0 K ≤ K - 1 :=
  ⟨Nat.zero_le _, pix_count_bound c z0 K⟩

/-- Witness for C6 at c = 0, z0 = 0, K = 2. -/
theorem c6_witness : 0 ≤ pixCount ⟨0, 0⟩ ⟨0, 0⟩ 2 ∧ pixCount ⟨0, 0⟩ ⟨0, 0⟩ 2 ≤ 1 :=
  c6_count_range ⟨0, 0⟩ ⟨0, 0⟩ 2 (by norm_num) (by norm_num)

/-- C7: within one frame, the active flag is monotonically non-increasing
(once false it stays false), the count changes only for pixels active after
the current step, and the count is non-decreasing while the pixel remains
active. -/
theorem c7_invariants (c z0 : QComplex) (i : ℕ) :
    ((pixRun c z0 i).active = false → (pixRun c z0 (i + 1)).active = false) ∧
    ((pixRun c z0 (i + 1)).count ≠ (pixRun c z0 i).count → (pixRun c z0 (i + 1)).active = true) ∧
    ((pixRun c z0 (i + 1)).active = true → (pixRun c z0 i).count ≤ (pixRun c z0 (i + 1)).count) := by
  refine ⟨?_, ?_, ?_⟩
  · intro h
    have hfz : pixRun c z0 (i + 1) = pixRun c z0 i := pixRun_frozen c z0 i h (i + 1) (by omega)
    rw [hfz]
    exact h
  · intro hne
    cases hact : (pixRun c z0 (i + 1)).active with
    | false => exact absurd (engineStep_count_of_inactive c i (pixRun c z0 i) hact) hne
    | true => rfl
  · intro _
    exact pix_count_step_mono c z0 i

/-- Witness for C7 at c = 0, z0 = 0, i = 0: the pixel stays active after
iteration 0 and its count does not decrease. -/
theorem c7_witness : (pixRun ⟨0, 0⟩ ⟨0, 0⟩ 0).count ≤ (pixRun ⟨0, 0⟩ ⟨0, 0⟩ 1).count :=
  (c7_invariants ⟨0, 0⟩ ⟨0, 0⟩ 0).2.2 (by norm_num [pixRun, engineStep, QComplex.normSq])

/-- C8: enlarging the iteration budget from K to a larger valid budget never
decreases the final count of a pixel that had not escaped by iteration K - 1
under the smaller budget. -/
theorem c8_budget_monotonicity (c z0 : QComplex) (K Kbig : ℕ)
    (hK2 : 2 ≤ K) (hK20 : Kbig ≤ 20) (hKK : K < Kbig)
    (hactive : (pixRun c z0 K).active = true) :
    pixCount c z0 K ≤ pixCount c z0 Kbig :=
  pix_count_mono c z0 K Kbig (Nat.le_of_lt hKK)

/-- Witness for C8 at c = 0, z0 = 0, K = 2, larger budget 3: the origin pixel
never escapes and its count grows with the budget. -/
theorem c8_witness : pixCount ⟨0, 0⟩ ⟨0, 0⟩ 2 ≤ pixCount ⟨0, 0⟩ ⟨0, 0⟩ 3 :=
  c8_budget_monotonicity ⟨0, 0⟩ ⟨0, 0⟩ 2 3 (by norm_num) (by norm_num) (by norm_num)
    (by norm_num [pixRun, engineStep, QComplex.normSq])

/-- C9: two invocations of the engine on identical inputs (grid, parameter c
and budget K) produce identical count grids; the computation is pure, so
equal inputs give equal outputs. -/
theorem c9_determinism (g gB : List (List QComplex)) (c cB : QComplex) (K KB : ℕ)
    (hg : g = gB) (hc : c = cB) (hK : K = KB) :
    countGrid c K g = countGrid cB KB gB := by
  rw [hg, hc, hK]

/-- Witness for C9 on the 2 by 2 grid with c = 0 and the default budget 10. -/
theorem c9_witness :
    countGrid ⟨0, 0⟩ 10 (gridZ 2 2 1) = countGrid ⟨0, 0⟩ 10 (gridZ 2 2 1) :=
  c9_determinism (gridZ 2 2 1) (gridZ 2 2 1) ⟨0, 0⟩ ⟨0, 0⟩ 10 10 rfl rfl rfl

/-- C10: every inactive pixel carries a frozen z beyond the escape bound,
and the escape test applied to all pixels produces exactly the same run as
the test restricted to active pixels. -/
theorem c10_mask_invariant (c z0 : QComplex) (i : ℕ) :
    ((pixRun c z0 i).active = false → 4 < QComplex.normSq (pixRun c z0 i).z) ∧
    pixRunMasked c z0 i = pixRun c z0 i := by
  refine ⟨?_, ?_⟩
  · induction i with
    | zero =>
      intro h
      simp [pixRun] at h
    | succ k ih =>
      intro h
      cases hact : (pixRun c z0 k).active with
      | false =>
        have hfz : pixRun c z0 (k + 1) = pixRun c z0 k :=
          pixRun_frozen c z0 k hact (k + 1) (by omega)
        rw [hfz]
        exact ih hact
      | true =>
        exact engineStep_escape c k (pixRun c z0 k) hact h
  · induction i with
    | zero => rfl
    | succ k ih =>
      show engineStepMasked c k (pixRunMasked c z0 k) = engineStep c k (pixRun c z0 k)
      rw [ih, engineStepMasked_eq]

/-- Witness for C10 at c = 0, z0 = 3, i = 1: the pixel is inactive after one
iteration and its frozen z = 9 satisfies normSq 9 = 81 > 4. -/
theorem c10_witness : 4 < QComplex.normSq (pixRun ⟨0, 0⟩ ⟨3, 0⟩ 1).z :=
  (c10_mask_invariant ⟨0, 0⟩ ⟨3, 0⟩ 1).1 (by norm_num [pixRun, engineStep, QComplex.normSq])

/-- A pixel of the m = n = 4, s = 1, c = 0 run whose first update exceeds the
escape bound has final count 0 under budget 3. -/
theorem pixCount_c3_entry (x y : ℚ)
    (h : 4 < QComplex.normSq (QComplex.mk x y * QComplex.mk x y + ⟨0, 0⟩)) :
    pixCount ⟨0, 0⟩ ⟨x, y⟩ 3 = 0 :=
  pix_escape_first ⟨0, 0⟩ ⟨x, y⟩ h 3 (by norm_num)

/-- Full evaluation of the count grid for m = n = 4, s = 1, K = 3, c = 0:
the grid spans the square from -4 to 4 in both axes, so the very first
update sends every sample beyond the escape bound and every count is 0. -/
theorem countGrid_c3_eval :
    countGrid ⟨0, 0⟩ 3 (gridZ 4 4 1) =
      [[0, 0, 0, 0], [0, 0, 0, 0], [0, 0, 0, 0], [0, 0, 0, 0]] := by
  norm_num [countGrid, gridZ, List.range_succ, xCoord, yCoord, linspace,
    pixCount_c3_entry, QComplex.normSq]

/-- Counterexample to C3: for m = n = 4, s = 1, K = 3, c = 0 the count grid
is not the constant-2 grid the claim demands; the smallest samples have
magnitude about 1.89, whose square 32/9 already exceeds the escape bound 2,
so every pixel escapes at iteration 0. -/
theorem c3_counterexample :
    countGrid ⟨0, 0⟩ 3 (gridZ 4 4 1) ≠
      [[2, 2, 2, 2], [2, 2, 2, 2], [2, 2, 2, 2], [2, 2, 2, 2]] := by
  rw [countGrid_c3_eval]
  decide

/-- C3 amended: for m = n = 4, s = 1, K = 3, c = 0, running GridBuilder and
then the engine yields the constant-0 count grid: every pixel magnitude
exceeds the escape bound 2 right after the first update, so every pixel
escapes during iteration 0 and keeps count 0. -/
theorem c3_all_counts_zero :
    countGrid ⟨0, 0⟩ 3 (gridZ 4 4 1) =
      [[0, 0, 0, 0], [0, 0, 0, 0], [0, 0, 0, 0], [0, 0, 0, 0]] :=
  countGrid_c3_eval

/-- C4: for positive m, n and positive scale s, the grid has exactly n rows
and m columns, entry [row][col] equals the complex sample with real part
x[col] and imaginary part y[row], the x and y coordinate families are the
evenly spaced linspace values over the intervals from -m/s to m/s and from
-n/s to n/s (left endpoint, right endpoint and constant consecutive spacing,
stated for the non-degenerate sizes of at least 2), and two invocations with
identical inputs produce identical grids. -/
theorem c4_gridBuilder (m n : ℕ) (s : ℚ) (hm : 0 < m) (hn : 0 < n) (hs : 0 < s) :
    (gridZ m n s).length = n ∧
    (∀ row ∈ gridZ m n s, row.length = m) ∧
    (∀ row col : ℕ, row < n → col < m →
      ((gridZ m n s).getD row []).getD col ⟨0, 0⟩ = ⟨xCoord m s col, yCoord n s row⟩) ∧
    (2 ≤ m → xCoord m s 0 = -(m : ℚ) / s ∧ xCoord m s (m - 1) = (m : ℚ) / s ∧
      ∀ j, xCoord m s (j + 1) - xCoord m s j = (2 * (m : ℚ) / s) / ((m : ℚ) - 1)) ∧
    (2 ≤ n → yCoord n s 0 = -(n : ℚ) / s ∧ yCoord n s (n - 1) = (n : ℚ) / s ∧
      ∀ j, yCoord n s (j + 1) - yCoord n s j = (2 * (n : ℚ) / s) / ((n : ℚ) - 1)) ∧
    gridZ m n s = gridZ m n s := by
  refine ⟨?_, ?_, ?_, ?_, ?_, rfl⟩
  · simp [gridZ]
  · intro row hrow
    rcases List.mem_map.mp hrow with ⟨r, _, hr⟩
    rw [← hr]
    simp
  · intro row col hr hc
    simp [gridZ, List.getD_eq_getElem?_getD, List.getElem?_map, List.getElem?_range, hr, hc]
  · intro hm2
    have hm1 : ((m - 1 : ℕ) : ℚ) = (m : ℚ) - 1 := by
      push_cast [Nat.cast_sub (by omega : 1 ≤ m)]
      ring
    have hne : (m : ℚ) - 1 ≠ 0 := by
      have h2 : (2 : ℚ) ≤ (m : ℚ) := by exact_mod_cast hm2
      intro hcontra
      nlinarith
    refine ⟨by simp [xCoord, linspace], ?_, ?_⟩
    · rw [xCoord, linspace, hm1]
      field_simp
      ring
    · intro j
      rw [xCoord, xCoord, linspace, linspace, hm1]
      push_cast
      ring
  · intro hn2
    have hn1 : ((n - 1 : ℕ) : ℚ) = (n : ℚ) - 1 := by
      push_cast [Nat.cast_sub (by omega : 1 ≤ n)]
      ring
    have hne : (n : ℚ) - 1 ≠ 0 := by
      have h2 : (2 : ℚ) ≤ (n : ℚ) := by exact_mod_cast hn2
      intro hcontra
      nlinarith
    refine ⟨by simp [yCoord, linspace], ?_, ?_⟩
    · rw [yCoord, linspace, hn1]
      field_simp
      ring
    · intro j
      rw [yCoord, yCoord, linspace, linspace, hn1]
      push_cast
      ring

/-- Witness for C4 at m = n = 2, s = 1: the grid has exactly 2 rows. -/
theorem c4_witness : (gridZ 2 2 1).length = 2 :=
  (c4_gridBuilder 2 2 1 (by norm_num) (by norm_num) (by norm_num)).1

/-- np.linspace over the reals, same closed form as the rational linspace;
the frame schedule uses pi, so this lives in the real numbers. -/
noncomputable def linspaceR (start stop : ℝ) (num : ℕ) (i : ℕ) : ℝ :=
  start + i * (stop - start) / ((num - 1 : ℕ) : ℝ)

/-- Frame angle a of app.py line 148: np.linspace(0.0, 4 * np.pi, 100) at
frame index t. -/
noncomputable def frameAngle (t : ℕ) : ℝ :=
  linspaceR 0 (4 * Real.pi) 100 t

/-- Frame parameter of app.py line 154: c = separation * np.exp(1j * a). -/
noncomputable def cParam (r : ℝ) (t : ℕ) : ℂ :=
  (r : ℂ) * Complex.exp (Complex.I * (frameAngle t : ℝ))

/-- Modelled from the spec: the closed-form frame parameter
c_t = r * exp(i * t * 4 * pi / (F - 1)) with F = 100 frames. -/
noncomputable def cSpecFormula (r : ℝ) (t : ℕ) : ℂ :=
  (r : ℂ) * Complex.exp (Complex.I * (((t : ℝ) * (4 * Real.pi) / ((100 : ℝ) - 1)) : ℝ))

/-- C5: for every radius in the slider range and every frame index t below
F = 100, the frame parameter produced by the code equals the spec's closed
form r * exp(i * t * 4 * pi / (F - 1)), and re-invocation reproduces the
identical value (the sequence is a pure function of r and t). -/
theorem c5_frame_params (r : ℝ) (hr1 : 0.7 ≤ r) (hr2 : r ≤ 2) :
    ∀ t : ℕ, t < 100 → cParam r t = cSpecFormula r t ∧ cParam r t = cParam r t := by
  intro t ht
  refine ⟨?_, rfl⟩
  have hang : frameAngle t = (t : ℝ) * (4 * Real.pi) / 99 := by
    norm_num [frameAngle, linspaceR]
  rw [cParam, cSpecFormula, hang]
  norm_num

/-- Witness for C5 at r = 1, t = 0. -/
theorem c5_witness : cParam 1 0 = cSpecFormula 1 0 :=
  (c5_frame_params 1 (by norm_num) (by norm_num) 0 (by norm_num)).1

/-- Every member of a list of naturals is at most the foldr maximum. -/
theorem le_foldr_max (l : List ℕ) (a : ℕ) (ha : a ∈ l) : a ≤ l.foldr max 0 := by
  induction l with
  | nil => cases ha
  | cons b t ih =>
    rcases List.mem_cons.mp ha with hb | ht
    · subst hb
      exact le_max_left _ _
    · exact le_trans (ih ht) (le_max_right _ _)

/-- The foldr maximum of a list of naturals is at most any upper bound of
its members. -/
theorem foldr_max_le (l : List ℕ) (b : ℕ) (h : ∀ a ∈ l, a ≤ b) : l.foldr max 0 ≤ b := by
  induction l with
  | nil => simp
  | cons x t ih =>
    simp only [List.foldr_cons]
    exact max_le (h x (by simp)) (ih fun a hat => h a (by simp [hat]))

/-- On a grid whose entries are all equal to v and which has at least one
entry, N.max() is v. -/
theorem gridMax_uniform (g : List (List ℕ)) (v : ℕ)
    (hu : ∀ row ∈ g, ∀ x ∈ row, x = v)
    (row0 : List ℕ) (hrow0 : row0 ∈ g) (x0 : ℕ) (hx0 : x0 ∈ row0) :
    gridMax g = v := by
  apply Nat.le_antisymm
  · apply foldr_max_le
    intro a ha
    rcases List.mem_map.mp ha with ⟨r, hr, hra⟩
    subst hra
    apply foldr_max_le
    intro b hb
    exact le_of_eq (hu r hr b hb)
  · have hx0v : x0 = v := hu row0 hrow0 x0 hx0
    have h1 : x0 ≤ row0.foldr max 0 := le_foldr_max row0 x0 hx0
    have h2 : row0.foldr max 0 ≤ gridMax g :=
      le_foldr_max _ _ (List.mem_map_of_mem _ hrow0)
    omega

/-- Counterexample to C1: the uniform count grid of ones is sent by the
normalization of app.py line 166 to the constant 0.0 grid (each entry is
1.0 - 1/1 = 0.0), not to the constant 1.0 grid the claim demands. -/
theorem c1_counterexample :
    normalize [[1, 1], [1, 1]] ≠ [[some 1, some 1], [some 1, some 1]] := by
  norm_num [normalize, gridMax, floatDiv]

/-- C1 amended: on a count grid whose entries are all equal the
normalization keeps the shape and is constant, but the constant is 0.0
(1.0 - cmax/cmax), not 1.0; and in the degenerate case cmax = 0 every
output entry is the non-finite result of 0.0 / 0.0 (NaN, modelled none)
rather than 1.0. No division error is raised in either case: the operation
is total. -/
theorem c1_uniform_normalization (g : List (List ℕ)) (v : ℕ)
    (hu : ∀ row ∈ g, ∀ x ∈ row, x = v) :
    List.map List.length (normalize g) = List.map List.length g ∧
    ∀ row ∈ normalize g, ∀ q ∈ row, q = if v = 0 then none else some 0 := by
  constructor
  · unfold normalize
    rw [List.map_map]
    apply List.map_congr_left
    intro r hr
    simp
  · intro row hrow q hq
    unfold normalize at hrow
    rcases List.mem_map.mp hrow with ⟨r, hr, hrq⟩
    subst hrq
    rcases List.mem_map.mp hq with ⟨x, hx, hxq⟩
    subst hxq
    have hxv : x = v := hu r hr x hx
    have hmax : gridMax g = v := gridMax_uniform g v hu r hr x hx
    subst hxv
    rw [hmax]
    by_cases hv : x = 0
    · subst hv
      simp [floatDiv]
    · rw [if_neg hv]
      have hxq2 : ((x : ℕ) : ℚ) ≠ 0 := Nat.cast_ne_zero.mpr hv
      simp [floatDiv, hxq2, div_self]

/-- Witness for C1 amended on the uniform grid of twos: the top-left output
entry is 0.0. -/
theorem c1_witness : ((normalize [[2, 2], [2, 2]]).getD 0 []).getD 0 none = some 0 := by
  have h := (c1_uniform_normalization [[2, 2], [2, 2]] 2 (by decide)).2
  have hrow : (normalize [[2, 2], [2, 2]]).getD 0 [] ∈ normalize [[2, 2], [2, 2]] := by
    simp [normalize]
  have hq : ((normalize [[2, 2], [2, 2]]).getD 0 []).getD 0 none ∈
      (normalize [[2, 2], [2, 2]]).getD 0 [] := by
    simp [normalize]
  have hval := h _ hrow _ hq
  simpa using hval

end Fractal
